import Mathlib

/-!
Verification development for the resume_matcher repository.

Python strings are modelled as `List Char` (`Str`); Python `set[str]` as
`Finset Str`; Python ints as `ℤ` where subtraction occurs, `ℕ` for counts;
Python floats that only undergo field arithmetic and comparison as `ℚ`.
Each definition is a direct translation of the named source function.
-/

set_option maxRecDepth 10000

/-- Python `str` modelled as a list of characters. -/
abbrev Str := List Char

/-- Turn a Lean string literal into our model type. -/
def pstr (s : String) : Str := s.data

/-- Python whitespace class (the characters matched by `\s` and stripped by
`str.strip()` for the ASCII inputs this program handles). -/
def pyWs (c : Char) : Bool :=
  c = ' ' || c = '\t' || c = '\n' || c = '\r' || c.toNat = 11 || c.toNat = 12

/-- Python `str.lower()` (ASCII model, via `Char.toLower`). -/
def pyLower (s : Str) : Str := s.map Char.toLower

/-- Python `str.strip()`: drop whitespace from both ends. -/
def pyStrip (s : Str) : Str :=
  ((s.dropWhile pyWs).reverse.dropWhile pyWs).reverse

/-- Python `str.split()` with no argument: maximal runs of non-whitespace
characters.  Implemented with an accumulator so that it is structurally
recursive and evaluates by `decide`. -/
def pyWordsAux : Str → Str → List Str
  | [], acc => if acc = [] then [] else [acc.reverse]
  | c :: rest, acc =>
      if pyWs c then
        if acc = [] then pyWordsAux rest []
        else acc.reverse :: pyWordsAux rest []
      else pyWordsAux rest (c :: acc)

/-- Python `s.split()` (whitespace words of a string). -/
def pyWords (s : Str) : List Str := pyWordsAux s []

/-- Python `sep.join`. -/
def pyJoin (sep : Str) : List Str → Str
  | [] => []
  | [x] => x
  | x :: y :: xs => x ++ sep ++ pyJoin sep (y :: xs)

/-- `'\n'.join(lines)` -/
def joinNL (ls : List Str) : Str := pyJoin ['\n'] ls

/-- Python `a in b` for strings: substring test. -/
def pyIn (needle hay : Str) : Prop := needle <:+: hay

instance (n h : Str) : Decidable (pyIn n h) := by
  unfold pyIn; infer_instance

/-- Python `text.split('\n')`. -/
def splitNL (s : Str) : List Str := s.splitOn '\n'

/-!  ### utils/preprocessing.py  -/

/-- `normalize_text` (preprocessing.py:22-27): take the part before the first
`(`, strip surrounding whitespace, lowercase. -/
def normalize_text (s : Str) : Str :=
  pyLower (pyStrip (s.takeWhile (· ≠ '(')))

/-- Collapse of `re.sub(r"\s+", " ", s).strip()`: whitespace runs become a
single space and outer whitespace disappears, i.e. the words joined by one
space. -/
def collapseWs (s : Str) : Str := pyJoin [' '] (pyWords s)

/-- `normalize_skill_string` (preprocessing.py:30-36). -/
def normalize_skill_string (s : Str) : Str :=
  collapseWs (((normalize_text s).map fun c => if c = '/' then ' ' else c).map
    fun c => if c = '-' then ' ' else c)

/-- The synonym/acronym map of `expand_skill_synonyms`
(preprocessing.py:41-50). -/
def synPairs : List (Str × List Str) :=
  [ (pstr "rest api development", [pstr "rest", pstr "api", pstr "rest api"])
  , (pstr "rest api", [pstr "rest", pstr "api"])
  , (pstr "ci cd pipelines", [pstr "cicd", pstr "ci", pstr "cd", pstr "ci cd"])
  , (pstr "nosql databases", [pstr "nosql"])
  , (pstr "amazon web services", [pstr "aws"])
  , (pstr "aws", [pstr "amazon web services"])
  , (pstr "graphql", [pstr "graph ql"])
  , (pstr "microservices architecture", [pstr "microservices"]) ]

/-- `mapping.get(sk, [])` for the synonym map. -/
def synonyms (s : Str) : List Str :=
  ((synPairs.find? fun p => p.1 = s).map Prod.snd).getD []

/-- `expand_skill_synonyms` (preprocessing.py:39-56) acting on a finite set:
every element is kept and mapped keys additionally contribute their listed
synonyms. -/
def expand_skill_synonyms (skills : Finset Str) : Finset Str :=
  skills ∪ skills.biUnion fun sk => (synonyms sk).toFinset

/-- `normalize_skill_set` (preprocessing.py:59-63): keep the entries that are
strings with non-blank content, normalize each, expand synonyms.  The
`isinstance(s, str)` filter is represented by the `Option Str` element type
(`none` = a non-string entry). -/
def normalize_skill_set (raw : List (Option Str)) : Finset Str :=
  expand_skill_synonyms
    (((raw.filterMap id).filter fun s => pyStrip s ≠ []).map normalize_skill_string).toFinset

/-- `flatten_experience_description`'s handling of one description value:
a list keeps its string elements joined by spaces, a string is itself, an
absent key is `""`, and Python's `str(None)` is `"None"` (the only non-string
scalar the record shape admits here). -/
inductive DescVal where
  | absent
  | noneV
  | strv (s : Str)
  | listv (l : List (Option Str))
deriving DecidableEq

/-- `flatten_experience_description` (preprocessing.py:113-122) applied to a
dict-shaped experience item's `description` value. -/
def flattenDesc : DescVal → Str
  | .absent => []
  | .noneV => pstr "None"
  | .strv s => s
  | .listv l => pyJoin [' '] (l.filterMap id)

/-!  ### config.py (RULE_WEIGHTS, MUST_HAVE_PENALTY)  -/

def required_skill_point : ℤ := 10
def preferred_skill_point : ℤ := 3
def experience_title_point : ℤ := 5
def experience_desc_bonus : ℤ := 1
def experience_desc_bonus_cap : ℤ := 10
def education_full : ℤ := 10
def education_partial : ℤ := 5
def projects_cap : ℤ := 10
def company_point : ℤ := 8
def company_cap : ℤ := 20
def MUST_HAVE_PENALTY : ℤ := 30

/-!  ### scoring/rule_based.py data model

The scorer tolerates heterogeneous record shapes (dict / string / other) in
each field; the inductives below carry exactly the distinctions the code's
`isinstance` checks observe.  `Option Str` models string-or-missing values
(`.get(...) or ""`). -/

/-- A category's value inside a skills mapping: a list (whose non-string
elements are dropped, hence `Option Str`) or some other value (skipped). -/
inductive SkillListVal where
  | listv (l : List (Option Str))
  | other
deriving DecidableEq

/-- The shape of `resume["skills"]` / `resume["technical_skills"]`:
a category→list mapping, a flat list, or anything else (contributes no
skills). -/
inductive SkillsField where
  | dict (entries : List (Str × SkillListVal))
  | listv (l : List (Option Str))
  | other
deriving DecidableEq

/-- `[s for s in lst if isinstance(s, str)]` -/
def stringsOf (l : List (Option Str)) : List Str := l.filterMap id

/-- The raw skill strings one skills field contributes
(rule_based.py:21-27). -/
def rawSkillsOf : SkillsField → List Str
  | .dict entries => entries.flatMap fun p =>
      match p.2 with
      | .listv l => stringsOf l
      | .other => []
  | .listv l => stringsOf l
  | .other => []

/-- An education entry: dict-shaped (`degree`/`field` string values, absent or
`None` modelled as `none`), a bare string, or anything else (skipped). -/
inductive EduItem where
  | dict (degree field_ : Option Str)
  | strv (s : Str)
  | other
deriving DecidableEq

/-- An experience entry: dict-shaped (`title`/`company` and a `description`),
a bare string, or anything else (skipped). -/
inductive ExpItem where
  | dict (title company : Option Str) (description : DescVal)
  | strv (s : Str)
  | other
deriving DecidableEq

/-- A project entry: dict with a `technologies` string list, a bare string,
or anything else. -/
inductive ProjItem where
  | dict (technologies : List Str)
  | strv (s : Str)
  | other
deriving DecidableEq

/-- The resume record as read by the scorers. -/
structure Resume where
  skills : SkillsField := .other
  technical_skills : SkillsField := .other
  education : List EduItem := []
  experience : List ExpItem := []
  projects : List ProjItem := []
  work_experience : List ExpItem := []
deriving DecidableEq

/-- The job record (config-free fields read by the scorers). -/
structure Job where
  required_skills : List (Option Str) := []
  preferred_skills : List (Option Str) := []
  must_have_skills : List (Option Str) := []
  preferred_companies : List Str := []
  education_required : Str := []
deriving DecidableEq

/-- `x or ""` for an optional string. -/
def orEmpty (o : Option Str) : Str := o.getD []

/-- Breakdown record returned by `RuleBasedScorer.score`
(rule_based.py:15). -/
structure Breakdown where
  skills_score : ℤ
  education_score : ℤ
  experience_score : ℤ
  projects_score : ℤ
  company_score : ℤ
deriving DecidableEq

/-- The resume's normalized skill set (rule_based.py:18-28): skills collected
from both the `skills` and `technical_skills` fields, then
`normalize_skill_set`. -/
def resumeSkillsOf (r : Resume) : Finset Str :=
  normalize_skill_set ((rawSkillsOf r.skills ++ rawSkillsOf r.technical_skills).map some)

/-- One required/preferred skill partially matches a resume skill when some
whitespace token of it longer than 2 characters occurs inside the resume
skill (rule_based.py:41-45). -/
def partialMatch (skill resumeSkill : Str) : Prop :=
  ∃ part ∈ pyWords skill, part.length > 2 ∧ pyIn part resumeSkill

instance (s t : Str) : Decidable (partialMatch s t) := by
  unfold partialMatch; infer_instance

/-- The matched subset of a normalized job-skill set: direct set members plus
partial matches (rule_based.py:34-54). -/
def matchedOf (jobSkills resumeSkills : Finset Str) : Finset Str :=
  jobSkills.filter fun sk => sk ∈ resumeSkills ∨ ∃ rs ∈ resumeSkills, partialMatch sk rs

/-- Education sub-score (rule_based.py:62-84): the first dict/string entry
whose lowercased degree contains the first word of the required education
earns full credit when the computer-science refinement matches, else partial
credit.  (When `education_required` is non-empty whitespace, Python's
`req.split()[0]` raises; `headD []` models all other inputs, on which the
guard `base ≠ []` is equivalent.) -/
def eduDegreeField : EduItem → Option (Str × Str)
  | .dict d f => some (pyLower (orEmpty d), pyLower (orEmpty f))
  | .strv s => some (pyLower s, pyLower s)
  | .other => none

def eduScoreOf (r : Resume) (j : Job) : ℤ :=
  let req := pyLower j.education_required
  let base := (pyWords req).headD []
  match r.education.find? fun e =>
      match eduDegreeField e with
      | some df => decide (base ≠ [] ∧ pyIn base df.1)
      | none => false with
  | some e =>
      match eduDegreeField e with
      | some df =>
          if pyIn (pstr "computer") req ∧ pyIn (pstr "science") req ∧
              (pyIn (pstr "computer") df.2 ∨ pyIn (pstr "comput") df.2) then
            education_full
          else
            education_partial
      | none => 0
  | none => 0

/-- Lowercased title and flattened description of an experience entry
(rule_based.py:91-98); `none` for entries of other shapes, which the loop
skips. -/
def expTitleDesc : ExpItem → Option (Str × Str)
  | .dict t _ d => some (pyLower (orEmpty t), pyLower (flattenDesc d))
  | .strv s => some (pyLower s, pyLower s)
  | .other => none

/-- Title-bonus accumulator (rule_based.py:100-101). -/
def expTitleScoreOf (r : Resume) (required : Finset Str) : ℤ :=
  experience_title_point *
    ((r.experience.filter fun e =>
        match expTitleDesc e with
        | some td => decide (∃ sk ∈ required, pyIn sk td.1)
        | none => false).length : ℤ)

/-- Uncapped description bonus (rule_based.py:102-105): one point per
(entry, required skill) pair with the skill inside the description text. -/
def descBonusRawOf (r : Resume) (required : Finset Str) : ℤ :=
  experience_desc_bonus *
    ((r.experience.map fun e =>
        match expTitleDesc e with
        | some td => ((required.filter fun sk => pyIn sk td.2).card : ℤ)
        | none => 0).sum)

/-- Capped description bonus (rule_based.py:106). -/
def descBonusOf (r : Resume) (required : Finset Str) : ℤ :=
  min (descBonusRawOf r required) experience_desc_bonus_cap

/-- `breakdown["experience_score"]` (rule_based.py:107). -/
def experienceScoreOf (r : Resume) (required : Finset Str) : ℤ :=
  min (expTitleScoreOf r required + descBonusOf r required) 15

/-- Technologies set of one project entry (rule_based.py:112-120). -/
def projTechs (required : Finset Str) : ProjItem → Finset Str
  | .dict techs => (techs.map pyLower).toFinset
  | .strv s => required.filter fun sk => pyIn sk (pyLower s)
  | .other => ∅

/-- `breakdown["projects_score"]` (rule_based.py:111-123). -/
def projScoreOf (r : Resume) (required : Finset Str) : ℤ :=
  min ((r.projects.map fun p => ((projTechs required p ∩ required).card : ℤ) * 2).sum)
    projects_cap

/-- Whether one dict-shaped experience entry's company contains a preferred
company (rule_based.py:131-146); at most one hit per entry (`break`). -/
def companyHit (prefs : Finset Str) : ExpItem → Bool
  | .dict _ c _ => decide (∃ p ∈ prefs, pyIn p (pyLower (orEmpty c)))
  | .strv _ => false
  | .other => false

/-- `breakdown["company_score"]` (rule_based.py:127-148), scanning both the
`experience` and `work_experience` fields. -/
def companyScoreOf (r : Resume) (j : Job) : ℤ :=
  let prefs := (j.preferred_companies.map pyLower).toFinset
  min (company_point * (((r.experience.filter (companyHit prefs)).length : ℤ) +
      ((r.work_experience.filter (companyHit prefs)).length : ℤ)))
    company_cap

/-- The full breakdown object (rule_based.py:15-149). -/
def breakdownOf (r : Resume) (j : Job) : Breakdown :=
  let resumeSkills := resumeSkillsOf r
  let required := normalize_skill_set j.required_skills
  let preferred := normalize_skill_set j.preferred_skills
  { skills_score := (matchedOf required resumeSkills).card * required_skill_point +
      (matchedOf preferred resumeSkills).card * preferred_skill_point
    education_score := eduScoreOf r j
    experience_score := experienceScoreOf r required
    projects_score := projScoreOf r required
    company_score := companyScoreOf r j }

/-- The summed score before the must-have penalty and the final cap
(the running `score` variable just before rule_based.py:151). -/
def prePenaltyScore (r : Resume) (j : Job) : ℤ :=
  let b := breakdownOf r j
  b.skills_score + b.education_score + b.experience_score + b.projects_score +
    b.company_score

/-- Whether some normalized must-have skill is missing from the resume's
normalized skill set (rule_based.py:152-153). -/
def missingMustHave (r : Resume) (j : Job) : Prop :=
  ∃ s ∈ normalize_skill_set j.must_have_skills, s ∉ resumeSkillsOf r

instance (r : Resume) (j : Job) : Decidable (missingMustHave r j) := by
  unfold missingMustHave; infer_instance

/-- `RuleBasedScorer.score` (rule_based.py:9-157): the returned 4-tuple
(total, breakdown, matched required skills, missing required skills).
Python returns the two skill collections as lists drawn from sets in
unspecified order; they are modelled as the sets themselves. -/
def ruleScore (r : Resume) (j : Job) : ℤ × Breakdown × Finset Str × Finset Str :=
  let required := normalize_skill_set j.required_skills
  let matched := matchedOf required (resumeSkillsOf r)
  let s := prePenaltyScore r j
  let s' := if missingMustHave r j then max 0 (s - MUST_HAVE_PENALTY) else s
  (min s' 100, breakdownOf r j, matched, required \ matched)

/-!  ### scoring/scorer.py  -/

/-- `ResumeScorer.classify` (scorer.py:13-22); the instance thresholds are
passed explicitly. -/
def classify (suitable_threshold maybe_threshold : ℚ) (score : ℚ) : String :=
  if score ≥ suitable_threshold then "Suitable"
  else if score ≥ maybe_threshold then "Maybe Suitable"
  else "Not Suitable"

/-!  ### models/semantic_matcher.py (skill coverage)  -/

/-- `SemanticMatcher.compute_skill_coverage` (semantic_matcher.py:73-94).
The required set is built by plain lowercasing
(`set([s.lower() for s in job_data.get('required_skills', [])])`); the
resume set is aggregated from both skills fields and run through
`normalize_skill_set`.  (On a job whose `required_skills` holds non-string
entries Python raises in the comprehension; the model is defined on records
whose entries are strings.) -/
def compute_skill_coverage (j : Job) (r : Resume) : ℚ :=
  let required := ((stringsOf j.required_skills).map pyLower).toFinset
  let resumeSkills := resumeSkillsOf r
  if required = ∅ then 0
  else ((required ∩ resumeSkills).card : ℚ) / (required.card : ℚ)

/-- Modelled from the words of claim C4 (NOT from the source): coverage with
the job's required skills run through `normalize_skill_set`, for comparison
with `compute_skill_coverage`. -/
def claimedSkillCoverage (j : Job) (r : Resume) : ℚ :=
  let required := normalize_skill_set j.required_skills
  let resumeSkills := resumeSkillsOf r
  if required = ∅ then 0
  else ((required ∩ resumeSkills).card : ℚ) / (required.card : ℚ)

/-!  ### parsers/base_parser.py — section segmentation  -/

/-- `SectionType` (base_parser.py:12-24). -/
inductive SectionType where
  | header | contact | summary | skills | experience | education
  | certifications | projects | accomplishments | languages | unknown
deriving DecidableEq

/-- Word characters (`\w` = `[A-Za-z0-9_]`, ASCII model). -/
def isWordChar (c : Char) : Bool :=
  ('a' ≤ c && c ≤ 'z') || ('A' ≤ c && c ≤ 'Z') || ('0' ≤ c && c ≤ '9') || c = '_'

/-- The line cleaning of `_identify_section_header` (base_parser.py:232-235):
strip, lowercase, drop the trailing run of `[:\-\s]`, drop the leading run of
non-word characters. -/
def cleanHeaderLine (line : Str) : Str :=
  let s := pyLower (pyStrip line)
  let s := (s.reverse.dropWhile fun c => c = ':' || c = '-' || pyWs c).reverse
  s.dropWhile fun c => !isWordChar c

/-- The token sequences matched by the section-header patterns
(base_parser.py:73-128).  Each regular expression there is a sequence of
literal tokens separated by `\s+`, anchored by `^`/`$`, with optional groups
and `?`/alternations; on a cleaned line (no leading non-word character, no
trailing whitespace) `re.match` succeeds exactly when the line's
whitespace-separated word list equals one of these sequences. -/
def summaryToks : List (List Str) :=
  [ [pstr "summary"], [pstr "professional", pstr "summary"]
  , [pstr "objective"], [pstr "career", pstr "objective"]
  , [pstr "profile"]
  , [pstr "about"], [pstr "about", pstr "me"]
  , [pstr "overview"]
  , [pstr "statement"]
  , [pstr "career", pstr "highlight"], [pstr "career", pstr "highlights"] ]

def experienceToks : List (List Str) :=
  [ [pstr "experience"], [pstr "professional", pstr "experience"]
  , [pstr "work", pstr "experience"], [pstr "work", pstr "history"]
  , [pstr "employment"], [pstr "employment", pstr "history"]
  , [pstr "career", pstr "history"]
  , [pstr "professional", pstr "background"]
  , [pstr "relevant", pstr "experience"] ]

def educationToks : List (List Str) :=
  [ [pstr "education"], [pstr "education", pstr "and", pstr "training"]
  , [pstr "academic", pstr "background"], [pstr "academic", pstr "history"]
  , [pstr "academic", pstr "credentials"]
  , [pstr "qualifications"]
  , [pstr "training"]
  , [pstr "education", pstr "&", pstr "certification"]
  , [pstr "education", pstr "&", pstr "certifications"] ]

def skillsToks : List (List Str) :=
  [ [pstr "skill"], [pstr "skills"]
  , [pstr "technical", pstr "skill"], [pstr "technical", pstr "skills"]
  , [pstr "core", pstr "competency"], [pstr "core", pstr "competencies"]
  , [pstr "area", pstr "of", pstr "expertise"], [pstr "areas", pstr "of", pstr "expertise"]
  , [pstr "technical", pstr "expertise"]
  , [pstr "skill", pstr "highlight"], [pstr "skill", pstr "highlights"]
  , [pstr "qualifications"]
  , [pstr "capabilities"] ]

def certificationsToks : List (List Str) :=
  [ [pstr "certification"], [pstr "certifications"]
  , [pstr "license"], [pstr "licenses"]
  , [pstr "license", pstr "and", pstr "certification"]
  , [pstr "license", pstr "and", pstr "certifications"]
  , [pstr "licenses", pstr "and", pstr "certification"]
  , [pstr "licenses", pstr "and", pstr "certifications"]
  , [pstr "professional", pstr "certification"], [pstr "professional", pstr "certifications"]
  , [pstr "credential"], [pstr "credentials"] ]

def projectsToks : List (List Str) :=
  [ [pstr "project"], [pstr "projects"]
  , [pstr "portfolio"], [pstr "personal", pstr "portfolio"]
  , [pstr "key", pstr "project"], [pstr "key", pstr "projects"]
  , [pstr "notable", pstr "project"], [pstr "notable", pstr "projects"] ]

def accomplishmentsToks : List (List Str) :=
  [ [pstr "accomplishment"], [pstr "accomplishments"]
  , [pstr "achievement"], [pstr "achievements"]
  , [pstr "award"], [pstr "awards"]
  , [pstr "award", pstr "and", pstr "honor"], [pstr "award", pstr "and", pstr "honors"]
  , [pstr "awards", pstr "and", pstr "honor"], [pstr "awards", pstr "and", pstr "honors"]
  , [pstr "honor"], [pstr "honors"]
  , [pstr "honor", pstr "and", pstr "award"], [pstr "honor", pstr "and", pstr "awards"]
  , [pstr "honors", pstr "and", pstr "award"], [pstr "honors", pstr "and", pstr "awards"]
  , [pstr "recognition"]
  , [pstr "notable", pstr "achievement"], [pstr "notable", pstr "achievements"] ]

/-- The pattern table in the dict's insertion (= iteration) order
(base_parser.py:73-128, 242-245). -/
def sectionPatterns : List (SectionType × List (List Str)) :=
  [ (.summary, summaryToks)
  , (.experience, experienceToks)
  , (.education, educationToks)
  , (.skills, skillsToks)
  , (.certifications, certificationsToks)
  , (.projects, projectsToks)
  , (.accomplishments, accomplishmentsToks) ]

/-- `_identify_section_header` (base_parser.py:230-247). -/
def identifySectionHeader (line : Str) : Option SectionType :=
  let cl := cleanHeaderLine line
  if cl.length > 50 then none
  else ((sectionPatterns.find? fun p => (p.2.contains (pyWords cl) : Bool)).map Prod.fst)

/-- One "save previous section" step of `detect_sections`
(base_parser.py:211-214 and 223-226): nothing saved when the accumulated
content is empty or strips to nothing. -/
def flushSave (cur : SectionType) (acc : List Str) : List (SectionType × Str) :=
  if acc ≠ [] ∧ pyStrip (joinNL acc) ≠ [] then [(cur, pyStrip (joinNL acc))] else []

/-- The line loop of `detect_sections` (base_parser.py:200-226), returning the
chronological list of `sections[...] = content` assignments. -/
def detectAux : List Str → SectionType → List Str → List (SectionType × Str)
  | [], cur, acc => flushSave cur acc
  | l :: ls, cur, acc =>
      if pyStrip l = [] then
        detectAux ls cur (if acc = [] then acc else acc ++ [[]])
      else
        match identifySectionHeader l with
        | some st => flushSave cur acc ++ detectAux ls st []
        | none => detectAux ls cur (acc ++ [l])

/-- All section saves of `detect_sections` on a text, in order. -/
def sectionSaves (text : Str) : List (SectionType × Str) :=
  detectAux (splitNL text) .header []

/-- Python dict assignment `d[k] = v`: replace in place, else append. -/
def dictUpdate (d : List (SectionType × Str)) (k : SectionType) (v : Str) :
    List (SectionType × Str) :=
  if d.any fun p => p.1 = k then d.map fun p => if p.1 = k then (k, v) else p
  else d ++ [(k, v)]

/-- `detect_sections` (base_parser.py:191-228): the dict built from the saves. -/
def detect_sections (text : Str) : List (SectionType × Str) :=
  (sectionSaves text).foldl (fun d p => dictUpdate d p.1 p.2) []

/-- `sections.get(k)` on the result of `detect_sections`. -/
def lookupSection (d : List (SectionType × Str)) (k : SectionType) : Option Str :=
  (d.find? fun p => p.1 = k).map Prod.snd

/-!  ### A small regular-expression engine

The contact-extraction patterns are matched with Python's `re`, whose
relevant semantics are: `re.search` returns the leftmost match; at a given
start position alternatives are tried left to right and `?`/`+`/`*` are
greedy with backtracking.  The engine below implements exactly that with a
continuation-passing matcher; `fuel` bounds the recursion depth (it is set
far above the maximal possible depth, so it never cuts a search short). -/

inductive RE where
  | eps
  | cls (p : Char → Bool)
  | cat (a b : RE)
  | alt (a b : RE)
  | opt (a : RE)
  | star (a : RE)
  | wb
  | eos
  | grp (i : Nat) (a : RE)

def RE.size : RE → Nat
  | .eps | .cls _ | .wb | .eos => 1
  | .cat a b | .alt a b => a.size + b.size + 1
  | .opt a | .star a | .grp _ a => a.size + 1

/-- Captured groups. -/
abbrev Caps := List (Nat × Str)

/-- The backtracking matcher.  `pv` is the character just before the current
position (for `\b`), `k` the continuation receiving the new previous
character, the remaining input and the captures. -/
def mrun : Nat → RE → Option Char → Str → Caps →
    (Option Char → Str → Caps → Option (Str × Caps)) → Option (Str × Caps)
  | 0, _, _, _, _, _ => none
  | fuel + 1, r, pv, s, cs, k =>
    match r with
    | .eps => k pv s cs
    | .cls p =>
        match s with
        | [] => none
        | c :: rest => if p c then k (some c) rest cs else none
    | .cat a b => mrun fuel a pv s cs fun pv' s' cs' => mrun fuel b pv' s' cs' k
    | .alt a b => (mrun fuel a pv s cs k) <|> (mrun fuel b pv s cs k)
    | .opt a => (mrun fuel a pv s cs k) <|> k pv s cs
    | .star a =>
        (mrun fuel a pv s cs fun pv' s' cs' =>
          if s'.length < s.length then mrun fuel (.star a) pv' s' cs' k else none) <|>
          k pv s cs
    | .wb =>
        if (isWordChar (pv.getD ' ')) != (isWordChar (s.headD ' ')) then k pv s cs
        else none
    | .eos => if s = [] then k pv s cs else none
    | .grp i a =>
        mrun fuel a pv s cs fun pv' s' cs' =>
          k pv' s' (cs' ++ [(i, s.take (s.length - s'.length))])

/-- Ample recursion-depth budget for matching `r` against `s`. -/
def reFuel (r : RE) (s : Str) : Nat := (r.size + 2) * (s.length + 2)

/-- Match anchored at the current position; returns (matched, captures). -/
def reMatchAt (r : RE) (pv : Option Char) (s : Str) : Option (Str × Caps) :=
  match mrun (reFuel r s) r pv s [] fun _ rest cs => some (rest, cs) with
  | some (rest, cs) => some (s.take (s.length - rest.length), cs)
  | none => none

/-- `re.search`: try successive start positions, leftmost match wins. -/
def researchAux (r : RE) (pv : Option Char) (s : Str) : Option (Str × Caps) :=
  match reMatchAt r pv s with
  | some m => some m
  | none =>
      match s with
      | [] => none
      | c :: t => researchAux r (some c) t

def research (r : RE) (s : Str) : Option (Str × Caps) := researchAux r none s

/-- `re.match`: anchored at the start of the string. -/
def rematch (r : RE) (s : Str) : Option (Str × Caps) := reMatchAt r none s

/-- `m.group(i)` (groups in these patterns match at most once). -/
def capGet (cs : Caps) (i : Nat) : Str :=
  ((cs.find? fun p => p.1 = i).map Prod.snd).getD []

/-- Sequencing and repetition helpers for building the patterns. -/
def reSeq (l : List RE) : RE := l.foldr .cat .eps

def rePlus (a : RE) : RE := .cat a (.star a)

def reChar (c : Char) : RE := .cls (· = c)

def reCharCI (c : Char) : RE := .cls fun ch => ch.toLower = c

def reStr (s : String) : RE := reSeq (s.data.map reChar)

def reStrCI (s : String) : RE := reSeq (s.data.map reCharCI)

def isDigitC (c : Char) : Bool := '0' ≤ c && c ≤ '9'

def isUpperC (c : Char) : Bool := 'A' ≤ c && c ≤ 'Z'

def isLowerC (c : Char) : Bool := 'a' ≤ c && c ≤ 'z'

def isAlphaC (c : Char) : Bool := isUpperC c || isLowerC c

def reD : RE := .cls isDigitC

/-- `[-.\s]` -/
def sepCls : RE := .cls fun c => c = '-' || c = '.' || pyWs c

/-!  ### parsers/base_parser.py — contact extraction patterns  -/

/-- `\b[A-Za-z0-9._%+-]+@[A-Za-z0-9.-]+\.[A-Z|a-z]{2,}\b`
(base_parser.py:257); note the literal `|` inside the final class. -/
def emailRE : RE :=
  reSeq [.wb,
    rePlus (.cls fun c => isAlphaC c || isDigitC c || c = '.' || c = '_' || c = '%' || c = '+' || c = '-'),
    reChar '@',
    rePlus (.cls fun c => isAlphaC c || isDigitC c || c = '.' || c = '-'),
    reChar '.',
    .cls fun c => isAlphaC c || c = '|',
    rePlus (.cls fun c => isAlphaC c || c = '|'),
    .wb]

/-- `(?:\+?1[-.\s]?)?\(?\d{3}\)?[-.\s]?\d{3}[-.\s]?\d{4}` (base_parser.py:264). -/
def phone1RE : RE :=
  reSeq [.opt (reSeq [.opt (reChar '+'), reChar '1', .opt sepCls]),
    .opt (reChar '('), reD, reD, reD, .opt (reChar ')'), .opt sepCls,
    reD, reD, reD, .opt sepCls, reD, reD, reD, reD]

/-- `\b\d{3}[-.\s]\d{3}[-.\s]\d{4}\b` (base_parser.py:265). -/
def phone2RE : RE :=
  reSeq [.wb, reD, reD, reD, sepCls, reD, reD, reD, sepCls, reD, reD, reD, reD, .wb]

/-- `\(\d{3}\)\s*\d{3}-\d{4}` (base_parser.py:266). -/
def phone3RE : RE :=
  reSeq [reChar '(', reD, reD, reD, reChar ')', .star (.cls pyWs),
    reD, reD, reD, reChar '-', reD, reD, reD, reD]

/-- `^(19|20)\d{2}$` (base_parser.py:274). -/
def yearRE : RE :=
  reSeq [.alt (reStr "19") (reStr "20"), reD, reD, .eos]

/-- `[\w-]` -/
def wordDash : RE := .cls fun c => isWordChar c || c = '-'

/-- `(?:https?://)?(?:www\.)?linkedin\.com/(?:in|pub)/([\w-]+)` with
`re.IGNORECASE` (base_parser.py:286). -/
def linkedinRE : RE :=
  reSeq [.opt (reSeq [reStrCI "http", .opt (reCharCI 's'), reStr "://"]),
    .opt (reSeq [reStrCI "www", reChar '.']),
    reStrCI "linkedin", reChar '.', reStrCI "com", reChar '/',
    .alt (reStrCI "in") (reStrCI "pub"), reChar '/',
    .grp 1 (rePlus wordDash)]

/-- `(?:https?://)?(?:www\.)?github\.com/([\w-]+)` with `re.IGNORECASE`
(base_parser.py:292). -/
def githubRE : RE :=
  reSeq [.opt (reSeq [reStrCI "http", .opt (reCharCI 's'), reStr "://"]),
    .opt (reSeq [reStrCI "www", reChar '.']),
    reStrCI "github", reChar '.', reStrCI "com", reChar '/',
    .grp 1 (rePlus wordDash)]

/-- `(https?://[\w.-]+(?:/\S*)?)` (base_parser.py:298). -/
def websiteRE : RE :=
  .grp 1 (reSeq [reStr "http", .opt (reChar 's'), reStr "://",
    rePlus (.cls fun c => isWordChar c || c = '.' || c = '-'),
    .opt (reSeq [reChar '/', .star (.cls fun c => !pyWs c)])])

/-- `([A-Z][a-z]+(?:\s+[A-Z][a-z]+)*),?\s*([A-Z]{2})\b` (base_parser.py:309). -/
def locationRE : RE :=
  reSeq [.grp 1 (reSeq [.cls isUpperC, rePlus (.cls isLowerC),
      .star (reSeq [rePlus (.cls pyWs), .cls isUpperC, rePlus (.cls isLowerC)])]),
    .opt (reChar ','), .star (.cls pyWs),
    .grp 2 (reSeq [.cls isUpperC, .cls isUpperC]), .wb]

/-- `@|\d{3}[-.\s]\d{3}|http|www\.` (base_parser.py:332). -/
def nameSkipRE : RE :=
  .alt (reChar '@')
    (.alt (reSeq [reD, reD, reD, sepCls, reD, reD, reD])
      (.alt (reStr "http") (reStr "www.")))

/-!  ### parsers/base_parser.py — contact extraction  -/

/-- `ContactInfo` (base_parser.py:26-35). -/
structure ContactInfo where
  name : Option Str := none
  email : Option Str := none
  phone : Option Str := none
  linkedin : Option Str := none
  github : Option Str := none
  location : Option Str := none
  website : Option Str := none
deriving DecidableEq

/-- Phone normalization (base_parser.py:276-282): keep the digits, drop a
leading country `1` from an 11-digit number, re-render 10 digits as
`(XXX) XXX-XXXX`, otherwise keep the raw match. -/
def normalizePhone (phone : Str) : Str :=
  let digits := phone.filter isDigitC
  let digits := if digits.length = 11 ∧ digits.headD ' ' = '1' then digits.tail else digits
  if digits.length = 10 then
    pstr "(" ++ digits.take 3 ++ pstr ") " ++ ((digits.drop 3).take 3) ++ pstr "-" ++ digits.drop 6
  else phone

/-- The `^(19|20)\d{2}$` guard on a candidate phone match. -/
def yearLike (s : Str) : Bool := (rematch yearRE s).isSome

/-- The phone-pattern fallback loop (base_parser.py:269-283): first pattern
with a non-year match wins, its match normalized. -/
def phoneSearch : List RE → Str → Option Str
  | [], _ => none
  | p :: rest, header =>
      match research p header with
      | some m =>
          if yearLike (pyStrip m.1) then phoneSearch rest header
          else some (normalizePhone m.1)
      | none => phoneSearch rest header

/-- Characters allowed in a name word: `^[A-Za-z\'\-\.]+$` (base_parser.py:346). -/
def nameChar (c : Char) : Bool := isAlphaC c || c = '\'' || c = '-' || c = '.'

/-- The name-blacklist keywords (base_parser.py:350). -/
def nameBlacklist : List Str :=
  [pstr "summary", pstr "objective", pstr "highlights", pstr "focused",
   pstr "driven", pstr "results"]

/-- `_extract_name` (base_parser.py:316-354): scan the first 10 lines,
keep lines that pass all heuristics, return the first. -/
def extractName (text : Str) (email : Option Str) : Option Str :=
  ((splitNL text).take 10).filterMap (fun l0 =>
    let l := pyStrip l0
    if l = [] then none
    else if (match email with
             | some e => e ≠ [] && decide (pyIn e l)
             | none => false : Bool) then none
    else if (research nameSkipRE l).isSome then none
    else if (identifySectionHeader l).isSome then none
    else
      let ws := pyWords l
      if 2 ≤ ws.length ∧ ws.length ≤ 4 ∧
          (∀ w ∈ ws, isUpperC (w.headD ' ') = true ∨ (w.length ≤ 2 ∧ w.getLast? = some '.')) ∧
          (∀ w ∈ ws, ∀ c ∈ w, nameChar c = true) ∧
          ¬ (∃ kw ∈ nameBlacklist, pyIn kw (pyLower l))
      then some l else none) |>.head?

/-- `site.rstrip('/')` -/
def rstripSlashes (s : Str) : Str := (s.reverse.dropWhile (· = '/')).reverse

/-- `extract_contact_info` (base_parser.py:249-314). -/
def extract_contact_info (text : Str) : ContactInfo :=
  let header := text.take 1000
  let email := (research emailRE header).map Prod.fst
  let phone := phoneSearch [phone1RE, phone2RE, phone3RE] header
  let linkedin := (research linkedinRE header).map fun m =>
    pstr "linkedin.com/in/" ++ capGet m.2 1
  let github := (research githubRE header).map fun m =>
    pstr "github.com/" ++ capGet m.2 1
  let website :=
    match research websiteRE header with
    | some m =>
        let site := capGet m.2 1
        if ¬ pyIn (pstr "linkedin.com") site ∧ ¬ pyIn (pstr "github.com") site then
          some (pyStrip (rstripSlashes site))
        else none
    | none => none
  let nm := extractName header email
  let location := (research locationRE header).map fun m =>
    capGet m.2 1 ++ pstr ", " ++ capGet m.2 2
  { name := nm, email := email, phone := phone, linkedin := linkedin,
    github := github, location := location, website := website }

/-!  ### parsers/base_parser.py — the `parse` result shapes (for C8)  -/

/-- JSON-like values, modelling the dictionaries `parse` returns. -/
inductive J where
  | s (v : Str)
  | b (v : Bool)
  | nullJ
  | arr (l : List J)
  | obj (entries : List (Str × J))

/-- Keys of an object. -/
def jKeys : J → List Str
  | .obj l => l.map Prod.fst
  | _ => []

/-- Field lookup on an object. -/
def jGet : J → Str → Option J
  | .obj l, k => (l.find? fun p => p.1 = k).map Prod.snd
  | _, _ => none

/-- The value `ResumeParser.parse` returns from its `except` branch
(base_parser.py:751-760): the error message plus empty containers.  Note the
branch builds only these six keys — no `summary` and no `sections`. -/
def parseFailureResult (err : Str) : J :=
  .obj
    [ (pstr "error", .s err)
    , (pstr "contact", .obj [])
    , (pstr "skills", .obj [(pstr "all", .arr [])])
    , (pstr "experience", .arr [])
    , (pstr "education", .arr [])
    , (pstr "metadata", .obj [(pstr "parsing_success", .b false)]) ]

/-- The keys of the dictionary `parse` returns on success
(base_parser.py:709-747). -/
def parseSuccessKeys : List Str :=
  [pstr "contact", pstr "summary", pstr "skills", pstr "experience",
   pstr "education", pstr "sections", pstr "metadata"]

/-- The sum of the five components of the breakdown returned by
`RuleBasedScorer.score`. -/
def breakdownSum (r : Resume) (j : Job) : ℤ :=
  let b := (ruleScore r j).2.1
  b.skills_score + b.education_score + b.experience_score + b.projects_score +
    b.company_score

/-- Modelled from the words of the amended C4 claim (NOT from the source):
coverage computed over the lowercased required-skill list, deduplicated, as a
plain list computation. -/
def lowercasedCoverageSpec (j : Job) (r : Resume) : ℚ :=
  let required := ((stringsOf j.required_skills).map pyLower).dedup
  if required.length = 0 then 0
  else ((required.filter fun sk => sk ∈ resumeSkillsOf r).length : ℚ) /
    (required.length : ℚ)

/-!  ### Concrete records used by witnesses and counterexamples  -/

/-- Seven distinct skills giving a pre-penalty rule score of exactly 70. -/
def sevenSkills : List (Option Str) :=
  [some (pstr "alpha"), some (pstr "bravo"), some (pstr "carol"),
   some (pstr "delta"), some (pstr "echox"), some (pstr "foxtrot"),
   some (pstr "golfy")]

/-- Resume for the must-have-penalty scenario: the seven skills, no python. -/
def penResume : Resume := { skills := .listv sevenSkills }

/-- Job for the must-have-penalty scenario: the seven skills required and
`must_have_skills=["Python"]`. -/
def penJob : Job :=
  { required_skills := sevenSkills, must_have_skills := [some (pstr "Python")] }

/-- Fifteen matching skills: pre-penalty sum 150, total capped at 100. -/
def fifteenSkills : List (Option Str) :=
  (List.range 15).map fun i => some (pstr ("skl" ++ toString i))

def capResume : Resume := { skills := .listv fifteenSkills }

def capJob : Job := { required_skills := fifteenSkills }

/-- Job and resume refuting claim C4: required skill `CI/CD` is only
lowercased by the code (staying `ci/cd`) while the resume skill normalizes to
`ci cd`. -/
def cicdJob : Job := { required_skills := [some (pstr "CI/CD")] }

def cicdResume : Resume := { skills := .listv [some (pstr "CI/CD")] }

/-- The contact-scenario header text of claim C9. -/
def janeText : Str :=
  pstr "Jane A. Doe\njane.doe@example.com\n(555) 123-4567\nlinkedin.com/in/janedoe"

/-- A two-`Skills`-sections text for the C7 witness. -/
def twoSkillsText : Str := pstr "Hello world\nSkills\npython\nSkills\njava"

/-!  ## Theorems  -/

/-!  ### Generic helper lemmas  -/

theorem charToNatOfNatValid (n : Nat) (h : n.isValidChar) :
    (Char.ofNat n).toNat = n := by
  unfold Char.ofNat
  rw [dif_pos h]
  rfl

theorem charToLowerIdem (c : Char) : c.toLower.toLower = c.toLower := by
  simp only [Char.toLower]
  split
  · next h =>
    have hv : (c.toNat + 32).isValidChar := Or.inl (by omega)
    rw [charToNatOfNatValid _ hv]
    rw [if_neg (by omega)]
  · rfl

theorem charToLowerLow (c d : Char) (hd : d.toNat < 97) (h : c.toLower = d) :
    c = d := by
  simp only [Char.toLower] at h
  split at h
  · next hc =>
    have hv : (c.toNat + 32).isValidChar := Or.inl (by omega)
    have h2 := congrArg Char.toNat h
    rw [charToNatOfNatValid _ hv] at h2
    omega
  · exact h

/-!  ### C5 — classifier bands  -/

/-- C5: `classify` returns "Suitable" iff the score is at least the suitable
threshold, "Maybe Suitable" iff it lies in `[maybe, suitable)`, and
"Not Suitable" otherwise (iff it is below both); a score exactly at the
suitable threshold is "Suitable". -/
theorem c5_classify_bands (st mt s : ℚ) :
    (classify st mt s = "Suitable" ↔ st ≤ s) ∧
    (classify st mt s = "Maybe Suitable" ↔ mt ≤ s ∧ s < st) ∧
    (classify st mt s = "Not Suitable" ↔ s < st ∧ s < mt) ∧
    (s = st → classify st mt s = "Suitable") := by
  unfold classify
  split_ifs with h1 h2
  · refine ⟨by simp [h1], ?_, ?_, fun _ => rfl⟩
    · constructor
      · intro h
        exact absurd h (by decide)
      · intro ⟨_, hlt⟩
        exact absurd h1 (not_le.2 hlt)
    · constructor
      · intro h
        exact absurd h (by decide)
      · intro ⟨hlt, _⟩
        exact absurd h1 (not_le.2 hlt)
  · refine ⟨?_, by simp [h2, lt_of_not_le h1], ?_, ?_⟩
    · constructor
      · intro h
        exact absurd h (by decide)
      · intro h
        exact absurd h h1
    · constructor
      · intro h
        exact absurd h (by decide)
      · intro ⟨_, hlt⟩
        exact absurd h2 (not_le.2 hlt)
    · intro he
      exact absurd (he ▸ le_refl s) h1
  · refine ⟨?_, ?_, by simp [lt_of_not_le h1, lt_of_not_le h2], ?_⟩
    · constructor
      · intro h
        exact absurd h (by decide)
      · intro h
        exact absurd h h1
    · constructor
      · intro h
        exact absurd h (by decide)
      · intro ⟨hle, _⟩
        exact absurd hle h2
    · intro he
      exact absurd (he ▸ le_refl s) h1

/-- Witness for C5 at concrete inputs: with the default thresholds, a score
exactly at the suitable threshold classifies "Suitable". -/
theorem c5_classify_bands_witness :
    classify (4/5) (1/2) (4/5) = "Suitable" :=
  (c5_classify_bands (4/5) (1/2) (4/5)).2.2.2 rfl

/-!  ### C2 — must-have penalty  -/

/-- C2: when some normalized must-have skill is missing from the resume's
normalized skill set, the returned total is the component sum minus the fixed
penalty 30, floored at 0, then capped at 100. -/
theorem c2_must_have_penalty (r : Resume) (j : Job)
    (h : missingMustHave r j) :
    (ruleScore r j).1 = min (max 0 (prePenaltyScore r j - 30)) 100 := by
  show min (if missingMustHave r j then _ else _) 100 = _
  rw [if_pos h]
  rfl

/-- Witness for C2, the claim's own scenario: seven matched required skills
(sum 70), must-have "Python" absent, total 70 − 30 = 40. -/
theorem c2_must_have_penalty_witness :
    missingMustHave penResume penJob ∧ (ruleScore penResume penJob).1 = 40 := by
  refine ⟨by decide, ?_⟩
  rw [c2_must_have_penalty penResume penJob (by decide)]
  decide

/-!  ### C10 — exact total formula  -/

/-- C10: the returned total is `min 100 S` without a missing must-have skill
and `min 100 (max 0 (S − 30))` with one, where `S` is the sum of the five
returned breakdown components; the breakdown is never adjusted, so the total
can be strictly below the sum (concrete second conjunct). -/
theorem c10_total_formula :
    (∀ (r : Resume) (j : Job),
      (ruleScore r j).1 =
        if missingMustHave r j then min (max 0 (breakdownSum r j - 30)) 100
        else min (breakdownSum r j) 100) ∧
    (ruleScore capResume capJob).1 < breakdownSum capResume capJob := by
  constructor
  · intro r j
    by_cases h : missingMustHave r j
    · rw [if_pos h]
      show min (if missingMustHave r j then _ else _) 100 = _
      rw [if_pos h]
      rfl
    · rw [if_neg h]
      show min (if missingMustHave r j then _ else _) 100 = _
      rw [if_neg h]
      rfl
  · decide

/-!  ### C4 — skill coverage (corrected)  -/

/-- Counterexample to C4 as stated: for required skill `CI/CD` matched by a
resume listing `CI/CD`, the code returns coverage 0 — not the value 1 that
intersecting the job's `normalize_skill_set`-normalized required set with the
resume's normalized set would give. -/
theorem c4_coverage_counterexample :
    compute_skill_coverage cicdJob cicdResume = 0 ∧
    claimedSkillCoverage cicdJob cicdResume = 1 ∧
    compute_skill_coverage cicdJob cicdResume ≠
      claimedSkillCoverage cicdJob cicdResume := by
  have hreq : ((stringsOf cicdJob.required_skills).map pyLower).toFinset =
      {pstr "ci/cd"} := by decide
  have hres : resumeSkillsOf cicdResume = {pstr "ci cd"} := by decide
  have hnorm : normalize_skill_set cicdJob.required_skills = {pstr "ci cd"} := by
    decide
  have hint : ({pstr "ci/cd"} : Finset Str) ∩ {pstr "ci cd"} = ∅ := by decide
  have h0 : compute_skill_coverage cicdJob cicdResume = 0 := by
    simp only [compute_skill_coverage, hreq, hres, hint]
    rw [if_neg (by decide)]
    simp
  have h1 : claimedSkillCoverage cicdJob cicdResume = 1 := by
    simp only [claimedSkillCoverage, hnorm, hres, Finset.inter_self]
    rw [if_neg (by decide)]
    norm_num
  refine ⟨h0, h1, ?_⟩
  rw [h0, h1]
  norm_num

/-!  ### C8 — parse failure shape (corrected)  -/

/-- Counterexample to C8 as stated: the dictionary `parse` returns from its
`except` branch has neither a `sections` nor a `summary` key, though both are
present on success. -/
theorem c8_failure_shape_counterexample :
    pstr "sections" ∉ jKeys (parseFailureResult (pstr "boom")) ∧
    pstr "summary" ∉ jKeys (parseFailureResult (pstr "boom")) ∧
    pstr "sections" ∈ parseSuccessKeys ∧ pstr "summary" ∈ parseSuccessKeys := by
  decide

/-- C8 amended: on any internal failure `parse` returns exactly the keys
error/contact/skills/experience/education/metadata, with
`metadata.parsing_success = false`, the error string, and empty containers
for contact, skills (a bare empty `all` list), experience and education;
`summary` and `sections` are absent. -/
theorem c8_failure_shape_amended (err : Str) :
    jKeys (parseFailureResult err) =
      [pstr "error", pstr "contact", pstr "skills", pstr "experience",
       pstr "education", pstr "metadata"] ∧
    jGet (parseFailureResult err) (pstr "error") = some (.s err) ∧
    jGet (parseFailureResult err) (pstr "contact") = some (.obj []) ∧
    jGet (parseFailureResult err) (pstr "skills") =
      some (.obj [(pstr "all", .arr [])]) ∧
    jGet (parseFailureResult err) (pstr "experience") = some (.arr []) ∧
    jGet (parseFailureResult err) (pstr "education") = some (.arr []) ∧
    jGet (parseFailureResult err) (pstr "metadata") =
      some (.obj [(pstr "parsing_success", .b false)]) ∧
    jGet (parseFailureResult err) (pstr "sections") = none ∧
    jGet (parseFailureResult err) (pstr "summary") = none := by
  refine ⟨rfl, ?_, ?_, ?_, ?_, ?_, ?_, ?_, ?_⟩ <;> rfl

/-!  ### C9 — contact extraction scenario  -/

/-- C9: on the four-line header text, `extract_contact_info` finds the name
"Jane A. Doe", the email, the phone re-rendered as `(555) 123-4567`, and the
linkedin handle `linkedin.com/in/janedoe`. -/
theorem c9_contact_scenario :
    (extract_contact_info janeText).name = some (pstr "Jane A. Doe") ∧
    (extract_contact_info janeText).email = some (pstr "jane.doe@example.com") ∧
    (extract_contact_info janeText).phone = some (pstr "(555) 123-4567") ∧
    (extract_contact_info janeText).linkedin =
      some (pstr "linkedin.com/in/janedoe") := by
  decide

/-!  ### C1 — bounds on the rule-based score  -/

theorem eduScoreOf_cases (r : Resume) (j : Job) :
    eduScoreOf r j = 0 ∨ eduScoreOf r j = 5 ∨ eduScoreOf r j = 10 := by
  simp only [eduScoreOf]
  split
  · split
    · split_ifs
      · right; right; rfl
      · right; left; rfl
    · left; rfl
  · left; rfl

theorem eduScoreOf_bounds (r : Resume) (j : Job) :
    0 ≤ eduScoreOf r j ∧ eduScoreOf r j ≤ 10 := by
  rcases eduScoreOf_cases r j with h | h | h <;> rw [h] <;> norm_num

theorem expTitleScoreOf_nonneg (r : Resume) (required : Finset Str) :
    0 ≤ expTitleScoreOf r required := by
  unfold expTitleScoreOf
  exact mul_nonneg (by norm_num [experience_title_point]) (Int.natCast_nonneg _)

theorem descBonusRawOf_nonneg (r : Resume) (required : Finset Str) :
    0 ≤ descBonusRawOf r required := by
  unfold descBonusRawOf
  refine mul_nonneg (by norm_num [experience_desc_bonus]) ?_
  apply List.sum_nonneg
  intro x hx
  rw [List.mem_map] at hx
  obtain ⟨e, _, rfl⟩ := hx
  cases hte : expTitleDesc e <;> simp only [hte] <;>
    first
    | exact le_refl 0
    | exact Int.natCast_nonneg _

theorem descBonusOf_nonneg (r : Resume) (required : Finset Str) :
    0 ≤ descBonusOf r required :=
  le_min (descBonusRawOf_nonneg r required) (by norm_num [experience_desc_bonus_cap])

theorem descBonusOf_le (r : Resume) (required : Finset Str) :
    descBonusOf r required ≤ 10 :=
  min_le_right _ _

theorem experienceScoreOf_nonneg (r : Resume) (required : Finset Str) :
    0 ≤ experienceScoreOf r required :=
  le_min (add_nonneg (expTitleScoreOf_nonneg r required) (descBonusOf_nonneg r required))
    (by norm_num)

theorem experienceScoreOf_le (r : Resume) (required : Finset Str) :
    experienceScoreOf r required ≤ 15 :=
  min_le_right _ _

theorem projScoreOf_nonneg (r : Resume) (required : Finset Str) :
    0 ≤ projScoreOf r required := by
  refine le_min ?_ (by norm_num [projects_cap])
  apply List.sum_nonneg
  intro x hx
  rw [List.mem_map] at hx
  obtain ⟨p, _, rfl⟩ := hx
  exact mul_nonneg (Int.natCast_nonneg _) (by norm_num)

theorem projScoreOf_le (r : Resume) (required : Finset Str) :
    projScoreOf r required ≤ 10 :=
  min_le_right _ _

theorem companyScoreOf_nonneg (r : Resume) (j : Job) :
    0 ≤ companyScoreOf r j := by
  refine le_min ?_ (by norm_num [company_cap])
  exact mul_nonneg (by norm_num [company_point])
    (add_nonneg (Int.natCast_nonneg _) (Int.natCast_nonneg _))

theorem companyScoreOf_le (r : Resume) (j : Job) :
    companyScoreOf r j ≤ 20 :=
  min_le_right _ _

theorem skillsScore_nonneg (r : Resume) (j : Job) :
    0 ≤ (breakdownOf r j).skills_score := by
  show (0 : ℤ) ≤
    ((matchedOf (normalize_skill_set j.required_skills) (resumeSkillsOf r)).card : ℤ) *
        required_skill_point +
      ((matchedOf (normalize_skill_set j.preferred_skills) (resumeSkillsOf r)).card : ℤ) *
        preferred_skill_point
  exact add_nonneg
    (mul_nonneg (Int.natCast_nonneg _) (by norm_num [required_skill_point]))
    (mul_nonneg (Int.natCast_nonneg _) (by norm_num [preferred_skill_point]))

theorem prePenaltyScore_nonneg (r : Resume) (j : Job) :
    0 ≤ prePenaltyScore r j := by
  have expand : prePenaltyScore r j =
      (breakdownOf r j).skills_score + eduScoreOf r j +
        experienceScoreOf r (normalize_skill_set j.required_skills) +
        projScoreOf r (normalize_skill_set j.required_skills) +
        companyScoreOf r j := rfl
  rw [expand]
  have h1 := skillsScore_nonneg r j
  have h2 := (eduScoreOf_bounds r j).1
  have h3 := experienceScoreOf_nonneg r (normalize_skill_set j.required_skills)
  have h4 := projScoreOf_nonneg r (normalize_skill_set j.required_skills)
  have h5 := companyScoreOf_nonneg r j
  linarith

/-- C1: the returned rule-based total lies in [0, 100], the experience
component is at most 15 with its description bonus at most 10, the projects
component at most 10, the company component at most 20 and the education
component at most 10 (each also nonnegative). -/
theorem c1_rule_score_bounds (r : Resume) (j : Job) :
    0 ≤ (ruleScore r j).1 ∧ (ruleScore r j).1 ≤ 100 ∧
    (ruleScore r j).2.1.experience_score ≤ 15 ∧
    descBonusOf r (normalize_skill_set j.required_skills) ≤ 10 ∧
    (ruleScore r j).2.1.projects_score ≤ 10 ∧
    (ruleScore r j).2.1.company_score ≤ 20 ∧
    (ruleScore r j).2.1.education_score ≤ 10 := by
  have htot : (ruleScore r j).1 =
      min (if missingMustHave r j then max 0 (prePenaltyScore r j - MUST_HAVE_PENALTY)
        else prePenaltyScore r j) 100 := rfl
  have hbd : (ruleScore r j).2.1 = breakdownOf r j := rfl
  refine ⟨?_, ?_, ?_, ?_, ?_, ?_, ?_⟩
  · rw [htot]
    refine le_min ?_ (by norm_num)
    split_ifs
    · exact le_max_left 0 _
    · exact prePenaltyScore_nonneg r j
  · rw [htot]
    exact min_le_right _ _
  · rw [hbd]
    exact experienceScoreOf_le r _
  · exact descBonusOf_le r _
  · rw [hbd]
    exact projScoreOf_le r _
  · rw [hbd]
    exact companyScoreOf_le r j
  · rw [hbd]
    show eduScoreOf r j ≤ 10
    exact (eduScoreOf_bounds r j).2

/-!  ### Word-splitting machinery (for C3 and C6)  -/

theorem pyWordsAux_all_ws (run : Str) (acc : Str) (h : ∀ c ∈ run, pyWs c = true) :
    pyWordsAux run acc = pyWordsAux [] acc := by
  induction run generalizing acc with
  | nil => rfl
  | cons c rest ih =>
    have hc : pyWs c = true := h c (List.mem_cons_self c rest)
    have hrest : ∀ c ∈ rest, pyWs c = true := fun x hx => h x (List.mem_cons_of_mem c hx)
    simp only [pyWordsAux, hc, if_true]
    by_cases hacc : acc = []
    · subst hacc
      simp only [if_pos rfl]
      rw [ih [] hrest]
      rfl
    · rw [if_neg hacc]
      rw [ih [] hrest]
      simp [pyWordsAux, hacc]

theorem pyWordsAux_ws_prefix (run t : Str) (h : ∀ c ∈ run, pyWs c = true) :
    pyWordsAux (run ++ t) [] = pyWordsAux t [] := by
  induction run with
  | nil => rfl
  | cons c rest ih =>
    have hc : pyWs c = true := h c (List.mem_cons_self c rest)
    have hrest : ∀ x ∈ rest, pyWs x = true := fun x hx => h x (List.mem_cons_of_mem c hx)
    simp only [List.cons_append, pyWordsAux, hc, if_true, if_pos rfl]
    exact ih hrest

theorem pyWordsAux_ws_suffix (core run : Str) (acc : Str)
    (h : ∀ c ∈ run, pyWs c = true) :
    pyWordsAux (core ++ run) acc = pyWordsAux core acc := by
  induction core generalizing acc with
  | nil =>
    rw [List.nil_append]
    exact pyWordsAux_all_ws run acc h
  | cons c rest ih =>
    simp only [List.cons_append, pyWordsAux]
    by_cases hc : pyWs c = true
    · rw [if_pos hc, if_pos hc]
      by_cases hacc : acc = []
      · rw [if_pos hacc, if_pos hacc]
        exact ih []
      · rw [if_neg hacc, if_neg hacc]
        exact congrArg _ (ih [])
    · rw [if_neg hc, if_neg hc]
      exact ih (c :: acc)

theorem pyWords_strip (s : Str) : pyWords (pyStrip s) = pyWords s := by
  unfold pyWords pyStrip
  have h1 : s = s.takeWhile pyWs ++ s.dropWhile pyWs :=
    (List.takeWhile_append_dropWhile pyWs s).symm
  have htw : ∀ c ∈ s.takeWhile pyWs, pyWs c = true := fun c hc =>
    List.mem_takeWhile_imp hc
  set m := s.dropWhile pyWs with hm
  have h2 : pyWordsAux s [] = pyWordsAux m [] := by
    conv_lhs => rw [h1]
    exact pyWordsAux_ws_prefix _ m htw
  rw [h2]
  have h3 : m = (m.reverse.dropWhile pyWs).reverse ++ (m.reverse.takeWhile pyWs).reverse := by
    conv_lhs => rw [← List.reverse_reverse m]
    conv_lhs => rw [← List.takeWhile_append_dropWhile pyWs m.reverse]
    rw [List.reverse_append]
  have htw2 : ∀ c ∈ (m.reverse.takeWhile pyWs).reverse, pyWs c = true := fun c hc =>
    List.mem_takeWhile_imp (List.mem_reverse.1 hc)
  conv_rhs => rw [h3]
  exact (pyWordsAux_ws_suffix _ _ [] htw2).symm

theorem pyWordsAux_nonws_prefix (w t : Str) (acc : Str)
    (hw : ∀ c ∈ w, pyWs c = false) :
    pyWordsAux (w ++ t) acc = pyWordsAux t (w.reverse ++ acc) := by
  induction w generalizing acc with
  | nil => rfl
  | cons c rest ih =>
    have hc : pyWs c = false := hw c (List.mem_cons_self c rest)
    have hrest : ∀ x ∈ rest, pyWs x = false := fun x hx => hw x (List.mem_cons_of_mem c hx)
    simp only [List.cons_append, pyWordsAux, hc, Bool.false_eq_true, if_false]
    have h2 := ih (c :: acc) hrest
    rw [show (rest.append t : Str) = rest ++ t from rfl, h2]
    simp

theorem pyWords_good (s : Str) :
    ∀ w ∈ pyWords s, w ≠ [] ∧ ∀ c ∈ w, pyWs c = false := by
  suffices h : ∀ (s acc : Str), (∀ c ∈ acc, pyWs c = false) →
      ∀ w ∈ pyWordsAux s acc, w ≠ [] ∧ ∀ c ∈ w, pyWs c = false by
    exact h s [] (by intro c hc; cases hc)
  intro s
  induction s with
  | nil =>
    intro acc hacc w hw
    simp only [pyWordsAux] at hw
    split at hw
    · cases hw
    · next hne =>
      rw [List.mem_singleton] at hw
      subst hw
      exact ⟨by simpa using hne, fun c hc => hacc c (List.mem_reverse.1 hc)⟩
  | cons c rest ih =>
    intro acc hacc w hw
    simp only [pyWordsAux] at hw
    by_cases hc : pyWs c = true
    · rw [if_pos hc] at hw
      by_cases hacc0 : acc = []
      · rw [if_pos hacc0] at hw
        exact ih [] (by intro x hx; cases hx) w hw
      · rw [if_neg hacc0] at hw
        rcases List.mem_cons.1 hw with h | h
        · subst h
          exact ⟨by simpa using hacc0, fun x hx => hacc x (List.mem_reverse.1 hx)⟩
        · exact ih [] (by intro x hx; cases hx) w h
    · rw [if_neg hc] at hw
      refine ih (c :: acc) ?_ w hw
      intro x hx
      rcases List.mem_cons.1 hx with h | h
      · subst h
        simpa using hc
      · exact hacc x h

theorem pyWords_join (ws : List Str)
    (h : ∀ w ∈ ws, w ≠ [] ∧ ∀ c ∈ w, pyWs c = false) :
    pyWords (pyJoin [' '] ws) = ws := by
  induction ws with
  | nil => rfl
  | cons x tail ih =>
    have hx := h x (List.mem_cons_self x tail)
    cases tail with
    | nil =>
      show pyWordsAux x [] = [x]
      rw [← List.append_nil x, pyWordsAux_nonws_prefix x [] [] hx.2]
      have hxr : (x.reverse ++ [] : Str) ≠ [] := by simpa using hx.1
      simp [pyWordsAux, hxr, hx.1]
    | cons y ys =>
      have htail : ∀ w ∈ y :: ys, w ≠ [] ∧ ∀ c ∈ w, pyWs c = false :=
        fun w hw => h w (List.mem_cons_of_mem x hw)
      show pyWordsAux (x ++ [' '] ++ pyJoin [' '] (y :: ys)) [] = x :: y :: ys
      rw [List.append_assoc, pyWordsAux_nonws_prefix x _ [] hx.2]
      have hsp : pyWs ' ' = true := by decide
      have hxr : (x.reverse ++ [] : Str) ≠ [] := by simpa using hx.1
      show pyWordsAux (' ' :: pyJoin [' '] (y :: ys)) (x.reverse ++ []) = x :: y :: ys
      simp only [pyWordsAux, hsp, if_true, if_neg hxr]
      rw [List.append_nil, List.reverse_reverse]
      exact congrArg _ (ih htail)

theorem chars_pyJoin_space (ws : List Str) (c : Char) (hc : c ∈ pyJoin [' '] ws) :
    c = ' ' ∨ ∃ w ∈ ws, c ∈ w := by
  induction ws with
  | nil => cases hc
  | cons x tail ih =>
    cases tail with
    | nil =>
      right
      exact ⟨x, List.mem_cons_self x [], hc⟩
    | cons y ys =>
      rw [show pyJoin [' '] (x :: y :: ys) = x ++ [' '] ++ pyJoin [' '] (y :: ys)
        from rfl] at hc
      rcases List.mem_append.1 hc with h1 | h2
      · rcases List.mem_append.1 h1 with h3 | h4
        · exact Or.inr ⟨x, List.mem_cons_self x _, h3⟩
        · left
          simpa using h4
      · rcases ih h2 with h5 | ⟨w, hw, hcw⟩
        · exact Or.inl h5
        · exact Or.inr ⟨w, List.mem_cons_of_mem x hw, hcw⟩

theorem chars_pyWordsAux (s : Str) :
    ∀ (acc : Str) (w : Str), w ∈ pyWordsAux s acc → ∀ c ∈ w, c ∈ s ∨ c ∈ acc := by
  induction s with
  | nil =>
    intro acc w hw c hc
    simp only [pyWordsAux] at hw
    split at hw
    · cases hw
    · rw [List.mem_singleton] at hw
      subst hw
      exact Or.inr (List.mem_reverse.1 hc)
  | cons a rest ih =>
    intro acc w hw c hc
    simp only [pyWordsAux] at hw
    by_cases ha : pyWs a = true
    · rw [if_pos ha] at hw
      by_cases hacc : acc = []
      · rw [if_pos hacc] at hw
        rcases ih [] w hw c hc with h | h
        · exact Or.inl (List.mem_cons_of_mem a h)
        · cases h
      · rw [if_neg hacc] at hw
        rcases List.mem_cons.1 hw with h | h
        · subst h
          exact Or.inr (List.mem_reverse.1 hc)
        · rcases ih [] w h c hc with h2 | h2
          · exact Or.inl (List.mem_cons_of_mem a h2)
          · cases h2
    · rw [if_neg ha] at hw
      rcases ih (a :: acc) w hw c hc with h | h
      · exact Or.inl (List.mem_cons_of_mem a h)
      · rcases List.mem_cons.1 h with h2 | h2
        · subst h2
          exact Or.inl (List.mem_cons_self c rest)
        · exact Or.inr h2

theorem mem_collapseWs (t : Str) (c : Char) (hc : c ∈ collapseWs t) :
    c = ' ' ∨ c ∈ t := by
  rcases chars_pyJoin_space (pyWords t) c hc with h | ⟨w, hw, hcw⟩
  · exact Or.inl h
  · rcases chars_pyWordsAux t [] w hw c hcw with h | h
    · exact Or.inr h
    · cases h

theorem collapseWs_idem (t : Str) : collapseWs (collapseWs t) = collapseWs t := by
  show pyJoin [' '] (pyWords (pyJoin [' '] (pyWords t))) = pyJoin [' '] (pyWords t)
  rw [pyWords_join (pyWords t) (pyWords_good t)]

theorem takeWhileAll {p : Char → Bool} (l : Str) (h : ∀ c ∈ l, p c = true) :
    l.takeWhile p = l := by
  induction l with
  | nil => rfl
  | cons c rest ih =>
    rw [List.takeWhile_cons, if_pos (h c (List.mem_cons_self c rest))]
    rw [ih fun x hx => h x (List.mem_cons_of_mem c hx)]

theorem mapFixAll {f : Char → Char} (l : Str) (h : ∀ c ∈ l, f c = c) :
    l.map f = l := by
  induction l with
  | nil => rfl
  | cons c rest ih =>
    rw [List.map_cons, h c (List.mem_cons_self c rest),
      ih fun x hx => h x (List.mem_cons_of_mem c hx)]

theorem strip_subset (s : Str) : ∀ c ∈ pyStrip s, c ∈ s := by
  intro c hc
  unfold pyStrip at hc
  rw [List.mem_reverse] at hc
  have h1 := (List.dropWhile_sublist (l := (s.dropWhile pyWs).reverse) pyWs).subset hc
  rw [List.mem_reverse] at h1
  exact (List.dropWhile_sublist pyWs).subset h1

/-!  ### Idempotence machinery for `normalize_skill_string` (C3)  -/

theorem nskill_chars (y : Str) :
    ∀ c ∈ normalize_skill_string y,
      c.toLower = c ∧ c ≠ '(' ∧ c ≠ '/' ∧ c ≠ '-' := by
  intro c hc
  unfold normalize_skill_string at hc
  rcases mem_collapseWs _ c hc with h | h
  · subst h
    refine ⟨by decide, by decide, by decide, by decide⟩
  · rw [List.mem_map] at h
    obtain ⟨c1, hc1, rfl⟩ := h
    rw [List.mem_map] at hc1
    obtain ⟨c2, hc2, rfl⟩ := hc1
    unfold normalize_text pyLower at hc2
    rw [List.mem_map] at hc2
    obtain ⟨c3, hc3, rfl⟩ := hc2
    have hc3' := strip_subset _ _ hc3
    have hpar : c3 ≠ '(' := by
      have h5 := List.mem_takeWhile_imp hc3'
      simpa using h5
    by_cases hd1 : c3.toLower = '/'
    · simp only [hd1, if_pos rfl]
      refine ⟨by decide, by decide, by decide, by decide⟩
    · rw [if_neg hd1]
      by_cases hd2 : c3.toLower = '-'
      · rw [if_pos hd2]
        refine ⟨by decide, by decide, by decide, by decide⟩
      · rw [if_neg hd2]
        refine ⟨charToLowerIdem c3, ?_, hd1, hd2⟩
        intro hcontra
        exact hpar (charToLowerLow c3 '(' (by decide) hcontra)

theorem nskill_fixed (v : Str)
    (hv : ∀ c ∈ v, c.toLower = c ∧ c ≠ '(' ∧ c ≠ '/' ∧ c ≠ '-')
    (hcoll : collapseWs v = v) :
    normalize_skill_string v = v := by
  unfold normalize_skill_string normalize_text pyLower
  have h1 : v.takeWhile (fun c => decide (c ≠ '(')) = v :=
    takeWhileAll v fun c hc => by simpa using (hv c hc).2.1
  rw [h1]
  have hsub : ∀ c ∈ pyStrip v, c.toLower = c ∧ c ≠ '(' ∧ c ≠ '/' ∧ c ≠ '-' :=
    fun c hc => hv c (strip_subset v c hc)
  have h2 : (pyStrip v).map Char.toLower = pyStrip v :=
    mapFixAll _ fun c hc => (hsub c hc).1
  rw [h2]
  have h3 : (pyStrip v).map (fun c => if c = '/' then ' ' else c) = pyStrip v :=
    mapFixAll _ fun c hc => if_neg (hsub c hc).2.2.1
  rw [h3]
  have h4 : (pyStrip v).map (fun c => if c = '-' then ' ' else c) = pyStrip v :=
    mapFixAll _ fun c hc => if_neg (hsub c hc).2.2.2
  rw [h4]
  show pyJoin [' '] (pyWords (pyStrip v)) = v
  rw [pyWords_strip]
  exact hcoll

theorem nskill_idem (y : Str) :
    normalize_skill_string (normalize_skill_string y) = normalize_skill_string y :=
  nskill_fixed _ (nskill_chars y) (by unfold normalize_skill_string; exact collapseWs_idem _)

theorem nskill_strip_ne (y : Str) (h : normalize_skill_string y ≠ []) :
    pyStrip (normalize_skill_string y) ≠ [] := by
  unfold normalize_skill_string at h ⊢
  intro h0
  have h1 := pyWords_strip (collapseWs (((normalize_text y).map fun c =>
    if c = '/' then ' ' else c).map fun c => if c = '-' then ' ' else c))
  rw [h0] at h1
  have h2 : pyWords ([] : Str) = [] := rfl
  rw [h2] at h1
  have h3 : pyWords (collapseWs (((normalize_text y).map fun c =>
      if c = '/' then ' ' else c).map fun c => if c = '-' then ' ' else c)) =
      pyWords (((normalize_text y).map fun c =>
      if c = '/' then ' ' else c).map fun c => if c = '-' then ' ' else c) :=
    pyWords_join _ (pyWords_good _)
  rw [h3] at h1
  apply h
  show pyJoin [' ']
    (pyWords (((normalize_text y).map fun c =>
      if c = '/' then ' ' else c).map fun c => if c = '-' then ' ' else c)) = []
  rw [← h1]
  rfl

theorem mem_expand {S : Finset Str} {a : Str} :
    a ∈ expand_skill_synonyms S ↔ a ∈ S ∨ ∃ k ∈ S, a ∈ synonyms k := by
  unfold expand_skill_synonyms
  simp [Finset.mem_union, Finset.mem_biUnion, List.mem_toFinset]

theorem mem_nss {raw : List (Option Str)} {a : Str} :
    a ∈ normalize_skill_set raw ↔
      (∃ s, some s ∈ raw ∧ pyStrip s ≠ [] ∧ normalize_skill_string s = a) ∨
      ∃ k, (∃ s, some s ∈ raw ∧ pyStrip s ≠ [] ∧ normalize_skill_string s = k) ∧
        a ∈ synonyms k := by
  unfold normalize_skill_set
  rw [mem_expand]
  simp only [List.mem_toFinset, List.mem_map, List.mem_filter, List.mem_filterMap,
    id_eq, decide_not, Bool.not_eq_eq_eq_not, Bool.not_true, decide_eq_false_iff_not]
  constructor
  · rintro (⟨s, ⟨⟨o, ho, hos⟩, hst⟩, rfl⟩ | ⟨k, ⟨s, ⟨⟨o, ho, hos⟩, hst⟩, rfl⟩, hak⟩)
    · subst hos
      exact Or.inl ⟨s, ho, hst, rfl⟩
    · subst hos
      exact Or.inr ⟨normalize_skill_string s, ⟨s, ho, hst, rfl⟩, hak⟩
  · rintro (⟨s, hs, hst, rfl⟩ | ⟨k, ⟨s, hs, hst, rfl⟩, hak⟩)
    · exact Or.inl ⟨s, ⟨⟨some s, hs, rfl⟩, hst⟩, rfl⟩
    · exact Or.inr ⟨normalize_skill_string s, ⟨s, ⟨⟨some s, hs, rfl⟩, hst⟩, rfl⟩, hak⟩

theorem synonyms_cases (k : Str) :
    synonyms k = [] ∨ ∃ p ∈ synPairs, p.1 = k ∧ synonyms k = p.2 := by
  unfold synonyms
  cases hf : synPairs.find? fun p => p.1 = k with
  | none => exact Or.inl rfl
  | some p =>
    right
    refine ⟨p, List.mem_of_find?_eq_some hf, ?_, rfl⟩
    have h := List.find?_some hf
    simpa using h

theorem synPair_values_closed :
    ∀ p ∈ synPairs, ∀ q ∈ synPairs, ∀ a ∈ p.2, q.1 = a → ∀ b ∈ q.2,
      b = p.1 ∨ b ∈ p.2 := by decide

theorem synonyms_closed (k a b : Str) (ha : a ∈ synonyms k) (hb : b ∈ synonyms a) :
    b = k ∨ b ∈ synonyms k := by
  rcases synonyms_cases k with h | ⟨p, hp, hpk, heq⟩
  · rw [h] at ha
    cases ha
  · rw [heq] at ha ⊢
    rcases synonyms_cases a with h2 | ⟨q, hq, hqa, heq2⟩
    · rw [h2] at hb
      cases hb
    · rw [heq2] at hb
      rcases synPair_values_closed p hp q hq a ha hqa b hb with h3 | h3
      · exact Or.inl (hpk ▸ h3)
      · exact Or.inr h3

theorem synonym_values_good :
    ∀ p ∈ synPairs, ∀ a ∈ p.2,
      normalize_skill_string a = a ∧ pyStrip a ≠ [] ∧ a ≠ [] := by decide

theorem nss_elem_fixed {raw : List (Option Str)} {a : Str}
    (ha : a ∈ normalize_skill_set raw) :
    normalize_skill_string a = a ∧ (a ≠ [] → pyStrip a ≠ []) := by
  rcases mem_nss.1 ha with ⟨s, _, _, rfl⟩ | ⟨k, _, hak⟩
  · exact ⟨nskill_idem s, fun h => nskill_strip_ne s h⟩
  · rcases synonyms_cases k with h | ⟨p, hp, _, heq⟩
    · rw [h] at hak
      cases hak
    · rw [heq] at hak
      have hg := synonym_values_good p hp a hak
      exact ⟨hg.1, fun _ => hg.2.1⟩

theorem synonyms_mem_ne_nil {k a : Str} (hak : a ∈ synonyms k) : a ≠ [] := by
  rcases synonyms_cases k with h | ⟨p, hp, _, heq⟩
  · rw [h] at hak
    cases hak
  · rw [heq] at hak
    exact (synonym_values_good p hp a hak).2.2

theorem nss_closed {raw : List (Option Str)} {k a : Str}
    (hk : k ∈ normalize_skill_set raw) (hak : a ∈ synonyms k) :
    a ∈ normalize_skill_set raw := by
  rcases mem_nss.1 hk with hz | ⟨k0, hk0, hkk0⟩
  · exact mem_nss.2 (Or.inr ⟨k, hz, hak⟩)
  · rcases synonyms_closed k0 k a hkk0 hak with h | h
    · subst h
      exact mem_nss.2 (Or.inl hk0)
    · exact mem_nss.2 (Or.inr ⟨k0, hk0, h⟩)

/-!  ### C3 — idempotence of `normalize_skill_set` (corrected)  -/

/-- Counterexample to C3 as stated: the input `["(x)"]` normalizes to the
set containing only the empty string (the entry is non-blank, but the
parenthetical is stripped away), while re-normalizing an enumeration of that
output drops the now-blank entry and returns the empty set. -/
theorem c3_normalize_not_idempotent :
    normalize_skill_set [some (pstr "(x)")] = {([] : Str)} ∧
    normalize_skill_set [some ([] : Str)] = ∅ ∧
    normalize_skill_set [some ([] : Str)] ≠ normalize_skill_set [some (pstr "(x)")] := by
  decide

/-- C3 amended: re-normalizing (any enumeration of) the output of
`normalize_skill_set` returns the output with the empty string removed; in
particular normalization is idempotent exactly when the first pass produces
no empty string (an empty string arises only from entries that are non-blank
but normalize to nothing, such as `"(x)"`). -/
theorem c3_normalize_idempotent_amended (X : List (Option Str)) (Y : List Str)
    (hY : Y.toFinset = normalize_skill_set X) :
    normalize_skill_set (Y.map some) = (normalize_skill_set X).erase [] := by
  ext a
  rw [Finset.mem_erase]
  constructor
  · intro ha
    rcases mem_nss.1 ha with ⟨s, hs, hst, rfl⟩ | ⟨k, ⟨s, hs, hst, hsk⟩, hak⟩
    · have hsY : s ∈ Y := by simpa using hs
      have hsW : s ∈ normalize_skill_set X := by
        rw [← hY]
        exact List.mem_toFinset.2 hsY
      have hfix := (nss_elem_fixed hsW).1
      rw [hfix]
      refine ⟨?_, hsW⟩
      intro h0
      rw [h0] at hst
      exact hst rfl
    · have hsY : s ∈ Y := by simpa using hs
      have hsW : s ∈ normalize_skill_set X := by
        rw [← hY]
        exact List.mem_toFinset.2 hsY
      have hfix := (nss_elem_fixed hsW).1
      rw [hfix] at hsk
      subst hsk
      exact ⟨synonyms_mem_ne_nil hak, nss_closed hsW hak⟩
  · rintro ⟨hne, haW⟩
    have haY : a ∈ Y := List.mem_toFinset.1 (hY ▸ haW)
    have hfix := nss_elem_fixed haW
    refine mem_nss.2 (Or.inl ⟨a, ?_, hfix.2 hne, hfix.1⟩)
    exact List.mem_map.2 ⟨a, haY, rfl⟩

/-- Witness for C3's amended claim at the counterexample input: `["(x)"]`
normalizes to `{""}`, and re-normalizing the enumeration `[""]` of it gives
the empty set, i.e. the output minus the empty string. -/
theorem c3_normalize_idempotent_amended_witness :
    ([([] : Str)] : List Str).toFinset = normalize_skill_set [some (pstr "(x)")] ∧
    normalize_skill_set ([([] : Str)].map some) =
      (normalize_skill_set [some (pstr "(x)")]).erase [] := by
  refine ⟨by decide, ?_⟩
  exact c3_normalize_idempotent_amended [some (pstr "(x)")] [[]] (by decide)

/-!  ### C4 amended — coverage refines the lowercased-set specification  -/

theorem card_toFinset_inter (l : List Str) (S : Finset Str) :
    (l.toFinset ∩ S).card = (l.dedup.filter fun a => decide (a ∈ S)).length := by
  have h1 : l.toFinset ∩ S = (l.dedup.filter fun a => decide (a ∈ S)).toFinset := by
    ext a
    simp [List.mem_filter, List.mem_dedup, Finset.mem_inter, List.mem_toFinset]
  rw [h1]
  exact List.toFinset_card_of_nodup ((List.nodup_dedup l).filter _)

/-- C4 amended: `compute_skill_coverage` equals the specification that
intersects the job's lowercased (not `normalize_skill_set`-normalized)
required-skill set with the resume's normalized skill set, and it returns 0
(without raising) when the required set is empty. -/
theorem c4_coverage_amended (j : Job) (r : Resume) :
    compute_skill_coverage j r = lowercasedCoverageSpec j r ∧
    (((stringsOf j.required_skills).map pyLower).toFinset = ∅ →
      compute_skill_coverage j r = 0) := by
  constructor
  · simp only [compute_skill_coverage, lowercasedCoverageSpec]
    by_cases h : ((stringsOf j.required_skills).map pyLower).toFinset = ∅
    · rw [if_pos h]
      have h2 : ((stringsOf j.required_skills).map pyLower) = [] := by
        rw [← List.toFinset_eq_empty_iff]
        exact h
      rw [if_pos (by rw [h2]; rfl)]
    · rw [if_neg h]
      have h2 : ((stringsOf j.required_skills).map pyLower) ≠ [] := by
        intro h0
        exact h (by rw [h0]; rfl)
      have h3 : ((stringsOf j.required_skills).map pyLower).dedup.length ≠ 0 := by
        intro h0
        exact h2 ((List.dedup_eq_nil _).1 (List.length_eq_zero.1 h0))
      rw [if_neg h3, card_toFinset_inter, List.card_toFinset]
  · intro h
    simp only [compute_skill_coverage]
    rw [if_pos h]

/-- Witness for C4's amended claim: the empty-required job yields coverage 0,
and on the `CI/CD` records the code agrees with the lowercased-set
specification. -/
theorem c4_coverage_amended_witness :
    compute_skill_coverage {} cicdResume = 0 ∧
    compute_skill_coverage cicdJob cicdResume =
      lowercasedCoverageSpec cicdJob cicdResume :=
  ⟨(c4_coverage_amended {} cicdResume).2 (by decide),
   (c4_coverage_amended cicdJob cicdResume).1⟩

/-!  ### Substring machinery for C6  -/

theorem revInfOf {u v : Str} (h : u <:+: v) : u.reverse <:+: v.reverse := by
  obtain ⟨p, s, hps⟩ := h
  refine ⟨s.reverse, p.reverse, ?_⟩
  rw [← hps]
  simp [List.reverse_append, List.append_assoc]

theorem infNilEq {u : Str} (h : u <:+: ([] : Str)) : u = [] := by
  obtain ⟨p, s, hps⟩ := h
  have := List.append_eq_nil.1 hps
  exact (List.append_eq_nil.1 this.1).2

theorem dropWhileSuffixOf (p : Char → Bool) (l : Str) : l.dropWhile p <:+ l := by
  induction l with
  | nil => exact List.suffix_refl []
  | cons c t ih =>
    rw [List.dropWhile_cons]
    by_cases hc : p c = true
    · rw [if_pos hc]
      exact ih.trans (List.suffix_cons c t)
    · rw [if_neg hc]

theorem dropWhileHead (l : Str) :
    l.dropWhile pyWs = [] ∨
      ∃ c t, l.dropWhile pyWs = c :: t ∧ pyWs c = false := by
  induction l with
  | nil => exact Or.inl rfl
  | cons c t ih =>
    rw [List.dropWhile_cons]
    by_cases hc : pyWs c = true
    · rw [if_pos hc]
      exact ih
    · rw [if_neg hc]
      exact Or.inr ⟨c, t, rfl, by simpa using hc⟩

theorem infDropLeft {c : Char} {u' v : Str} (hc : pyWs c = false)
    (h : (c :: u') <:+: v) : (c :: u') <:+: v.dropWhile pyWs := by
  induction v with
  | nil =>
    have h0 := infNilEq h
    cases h0
  | cons a t ih =>
    by_cases ha : pyWs a = true
    · rw [List.dropWhile_cons, if_pos ha]
      apply ih
      obtain ⟨p, s, hps⟩ := h
      cases p with
      | nil =>
        have hca : c = a := by
          have h3 := congrArg List.head? hps
          simpa using h3
        rw [← hca] at ha
        rw [hc] at ha
        cases ha
      | cons b p' =>
        rw [List.cons_append, List.cons_append] at hps
        injection hps with h1 h2
        exact ⟨p', s, h2⟩
    · rw [List.dropWhile_cons, if_neg ha]
      exact h

theorem stripPrefOf (l : Str) : pyStrip l <+: l.dropWhile pyWs := by
  have h1 : (l.dropWhile pyWs).reverse.dropWhile pyWs <:+ (l.dropWhile pyWs).reverse :=
    dropWhileSuffixOf pyWs _
  have h2 := List.reverse_prefix.2 h1
  rw [List.reverse_reverse] at h2
  exact h2

theorem stripSubOf (l : Str) : pyStrip l <:+: l :=
  (stripPrefOf l).isInfix.trans (dropWhileSuffixOf pyWs l).isInfix

theorem stripRevHead (l : Str) (h : pyStrip l ≠ []) :
    ∃ c t, (pyStrip l).reverse = c :: t ∧ pyWs c = false := by
  unfold pyStrip at h ⊢
  rw [List.reverse_reverse]
  rcases dropWhileHead (l.dropWhile pyWs).reverse with h1 | ⟨c, t, h1, h2⟩
  · rw [h1] at h
    exact absurd rfl h
  · exact ⟨c, t, h1, h2⟩

theorem stripHead (l : Str) (h : pyStrip l ≠ []) :
    ∃ c t, pyStrip l = c :: t ∧ pyWs c = false := by
  have hpre := stripPrefOf l
  cases hsl : pyStrip l with
  | nil => exact absurd hsl h
  | cons c t =>
    refine ⟨c, t, rfl, ?_⟩
    rw [hsl] at hpre
    obtain ⟨s, hs⟩ := hpre
    rcases dropWhileHead l with h1 | ⟨c', t', h1, h2⟩
    · rw [h1] at hs
      exact absurd hs (by simp)
    · rw [h1] at hs
      have hcc : c = c' := by
        have h3 := congrArg List.head? hs
        simpa using h3
      rw [hcc]
      exact h2

theorem stripInfStrip {u v : Str} (h : u <:+: v) : pyStrip u <:+: pyStrip v := by
  by_cases hu : pyStrip u = []
  · rw [hu]
    exact ⟨[], pyStrip v, by simp⟩
  · have huv : pyStrip u <:+: v := (stripSubOf u).trans h
    obtain ⟨c, t, hct, hc⟩ := stripHead u hu
    have h1 : pyStrip u <:+: v.dropWhile pyWs := by
      rw [hct] at huv ⊢
      exact infDropLeft hc huv
    obtain ⟨c2, t2, hct2, hc2⟩ := stripRevHead u hu
    have h2 : (pyStrip u).reverse <:+: (v.dropWhile pyWs).reverse :=
      revInfOf h1
    have h3 : (pyStrip u).reverse <:+: ((v.dropWhile pyWs).reverse).dropWhile pyWs := by
      rw [hct2] at h2 ⊢
      exact infDropLeft hc2 h2
    have h4 := revInfOf h3
    rw [List.reverse_reverse] at h4
    exact h4

/-!  ### C6 — the segmenter never drops non-blank content  -/

theorem memJoinNLInf (l : Str) (ls : List Str) (h : l ∈ ls) : l <:+: joinNL ls := by
  induction ls with
  | nil => cases h
  | cons x tail ih =>
    cases tail with
    | nil =>
      rw [List.mem_singleton] at h
      subst h
      exact List.infix_refl l
    | cons y ys =>
      rcases List.mem_cons.1 h with h1 | h1
      · subst h1
        refine ⟨[], ['\n'] ++ pyJoin ['\n'] (y :: ys), ?_⟩
        show [] ++ l ++ (['\n'] ++ pyJoin ['\n'] (y :: ys)) =
          l ++ ['\n'] ++ pyJoin ['\n'] (y :: ys)
        simp [List.append_assoc]
      · obtain ⟨p, s, hps⟩ := ih h1
        refine ⟨x ++ ['\n'] ++ p, s, ?_⟩
        show x ++ ['\n'] ++ p ++ l ++ s = x ++ ['\n'] ++ joinNL (y :: ys)
        rw [← hps]
        simp [List.append_assoc]

theorem flushSave_keeps (cur : SectionType) (acc : List Str) (l : Str)
    (hmem : l ∈ acc) (hne : pyStrip l ≠ []) :
    ∃ pr ∈ flushSave cur acc, pyIn (pyStrip l) pr.2 := by
  have hinf : pyStrip l <:+: pyStrip (joinNL acc) :=
    stripInfStrip (memJoinNLInf l acc hmem)
  have hcne : pyStrip (joinNL acc) ≠ [] := by
    intro h0
    rw [h0] at hinf
    exact hne (infNilEq hinf)
  have hacc : acc ≠ [] := by
    rintro rfl
    cases hmem
  unfold flushSave
  rw [if_pos ⟨hacc, hcne⟩]
  exact ⟨(cur, pyStrip (joinNL acc)), List.mem_singleton.2 rfl, hinf⟩

theorem detectAux_keeps (ls : List Str) (cur : SectionType) (acc : List Str)
    (l : Str) (hmem : l ∈ acc) (hne : pyStrip l ≠ []) :
    ∃ pr ∈ detectAux ls cur acc, pyIn (pyStrip l) pr.2 := by
  induction ls generalizing cur acc with
  | nil => exact flushSave_keeps cur acc l hmem hne
  | cons x ls' ih =>
    simp only [detectAux]
    by_cases hx : pyStrip x = []
    · rw [if_pos hx]
      apply ih
      split
      · exact hmem
      · exact List.mem_append_left _ hmem
    · rw [if_neg hx]
      cases hid : identifySectionHeader x with
      | some st =>
        simp only [hid]
        obtain ⟨pr, hpr, hin⟩ := flushSave_keeps cur acc l hmem hne
        exact ⟨pr, List.mem_append_left _ hpr, hin⟩
      | none =>
        simp only [hid]
        exact ih cur (acc ++ [x]) (List.mem_append_left _ hmem)

theorem detectAux_covers (ls : List Str) (cur : SectionType) (acc : List Str)
    (l : Str) (hmem : l ∈ ls) (hne : pyStrip l ≠ [])
    (hhd : identifySectionHeader l = none) :
    ∃ pr ∈ detectAux ls cur acc, pyIn (pyStrip l) pr.2 := by
  induction ls generalizing cur acc with
  | nil => cases hmem
  | cons x ls' ih =>
    simp only [detectAux]
    rcases List.mem_cons.1 hmem with h1 | h1
    · subst h1
      rw [if_neg hne]
      simp only [hhd]
      exact detectAux_keeps ls' cur (acc ++ [l]) l
        (List.mem_append_right _ (List.mem_singleton.2 rfl)) hne
    · by_cases hx : pyStrip x = []
      · rw [if_pos hx]
        split
        · exact ih cur acc h1
        · exact ih cur (acc ++ [[]]) h1
      · rw [if_neg hx]
        cases hid : identifySectionHeader x with
        | some st =>
          simp only [hid]
          obtain ⟨pr, hpr, hin⟩ := ih st [] h1
          exact ⟨pr, List.mem_append_right _ hpr, hin⟩
        | none =>
          simp only [hid]
          exact ih cur (acc ++ [x]) h1

/-- C6: every non-blank line of the input that is not identified as a section
header appears (as its stripped form, a substring) in the content of some
section saved while `detect_sections` processes the text. -/
theorem c6_sections_cover_content (text : Str) (l : Str)
    (hmem : l ∈ splitNL text) (hne : pyStrip l ≠ [])
    (hhd : identifySectionHeader l = none) :
    ∃ pr ∈ sectionSaves text, pyIn (pyStrip l) pr.2 :=
  detectAux_covers (splitNL text) .header [] l hmem hne hhd

/-- Witness for C6 on a concrete resume text. -/
theorem c6_sections_cover_content_witness :
    (pstr "python") ∈ splitNL (pstr "Intro\nSkills\npython") ∧
    ∃ pr ∈ sectionSaves (pstr "Intro\nSkills\npython"),
      pyIn (pyStrip (pstr "python")) pr.2 :=
  ⟨by decide, c6_sections_cover_content _ _ (by decide) (by decide) (by decide)⟩

/-!  ### C7 — "last wins" for recurring section kinds  -/

theorem findAppendOr {α : Type} (p : α → Bool) (l₁ l₂ : List α) :
    (l₁ ++ l₂).find? p = ((l₁.find? p).orElse fun _ => l₂.find? p) := by
  induction l₁ with
  | nil => rfl
  | cons a t ih =>
    rw [List.cons_append, List.find?_cons, List.find?_cons]
    cases ha : p a with
    | true => rfl
    | false => exact ih

theorem findMapUpdateSelf (d : List (SectionType × Str)) (k : SectionType) (v : Str)
    (h : (d.any fun p => p.1 = k) = true) :
    (d.map fun p => if p.1 = k then (k, v) else p).find? (fun p => p.1 = k) =
      some (k, v) := by
  induction d with
  | nil => cases h
  | cons hd tl ih =>
    rw [List.map_cons]
    by_cases hhd : hd.1 = k
    · rw [if_pos hhd, List.find?_cons]
      have hdec : (decide ((k, v).1 = k)) = true := by simp
      rw [hdec]
    · rw [if_neg hhd, List.find?_cons]
      have hdec : (decide (hd.1 = k)) = false := by simpa using hhd
      rw [hdec]
      apply ih
      rcases List.any_eq_true.1 h with ⟨p, hp, hpk⟩
      rcases List.mem_cons.1 hp with h1 | h1
      · subst h1
        exact absurd (by simpa using hpk) hhd
      · exact List.any_eq_true.2 ⟨p, h1, hpk⟩

theorem findMapUpdateOther (d : List (SectionType × Str)) (k : SectionType) (v : Str)
    (k' : SectionType) (hk : k' ≠ k) :
    (d.map fun p => if p.1 = k then (k, v) else p).find? (fun p => p.1 = k') =
      d.find? fun p => p.1 = k' := by
  induction d with
  | nil => rfl
  | cons hd tl ih =>
    rw [List.map_cons, List.find?_cons, List.find?_cons]
    by_cases hhd : hd.1 = k
    · rw [if_pos hhd]
      have h1 : (decide ((k, v).1 = k')) = false := by
        simp only [decide_eq_false_iff_not]
        exact fun h => hk h.symm
      have h2 : (decide (hd.1 = k')) = false := by
        simp only [decide_eq_false_iff_not]
        rw [hhd]
        exact fun h => hk h.symm
      rw [h1, h2]
      exact ih
    · rw [if_neg hhd]
      cases h2 : decide (hd.1 = k') with
      | true => rfl
      | false => exact ih

theorem lookupDictUpdateSelf (d : List (SectionType × Str)) (k : SectionType)
    (v : Str) : lookupSection (dictUpdate d k v) k = some v := by
  unfold dictUpdate lookupSection
  by_cases hany : (d.any fun p => p.1 = k) = true
  · rw [if_pos hany, findMapUpdateSelf d k v hany]
    rfl
  · rw [if_neg hany, findAppendOr]
    have hnone : (d.find? fun p => p.1 = k) = none := by
      rw [List.find?_eq_none]
      intro p hp hpk
      exact hany (List.any_eq_true.2 ⟨p, hp, hpk⟩)
    rw [hnone]
    show (([(k, v)].find? fun p => p.1 = k).map Prod.snd) = some v
    rw [List.find?_cons]
    have hdec : (decide ((k, v).1 = k)) = true := by simp
    rw [hdec]
    rfl

theorem lookupDictUpdateOther (d : List (SectionType × Str)) (k : SectionType)
    (v : Str) (k' : SectionType) (hk : k' ≠ k) :
    lookupSection (dictUpdate d k v) k' = lookupSection d k' := by
  unfold dictUpdate lookupSection
  by_cases hany : (d.any fun p => p.1 = k) = true
  · rw [if_pos hany, findMapUpdateOther d k v k' hk]
  · rw [if_neg hany, findAppendOr]
    cases hf : d.find? fun p => p.1 = k' with
    | some p => rfl
    | none =>
      show (([(k, v)].find? fun p => p.1 = k').map Prod.snd) = none
      rw [List.find?_cons]
      have hdec : (decide ((k, v).1 = k')) = false := by
        simp only [decide_eq_false_iff_not]
        exact fun h => hk h.symm
      rw [hdec]
      rfl

theorem lookupFoldlSaves (saves : List (SectionType × Str))
    (d0 : List (SectionType × Str)) (k : SectionType) :
    lookupSection (saves.foldl (fun d p => dictUpdate d p.1 p.2) d0) k =
      match (saves.filterMap fun p => if p.1 = k then some p.2 else none).getLast? with
      | some v => some v
      | none => lookupSection d0 k := by
  induction saves generalizing d0 with
  | nil => rfl
  | cons p rest ih =>
    rw [List.foldl_cons, ih, List.filterMap_cons]
    by_cases hp : p.1 = k
    · rw [if_pos hp]
      cases hfm : (rest.filterMap fun q => if q.1 = k then some q.2 else none) with
      | nil =>
        show lookupSection (dictUpdate d0 p.1 p.2) k = some p.2
        rw [hp]
        exact lookupDictUpdateSelf d0 k p.2
      | cons b t =>
        rw [List.getLast?_cons_cons]
        have hsome : (b :: t).getLast?.isSome := by
          rw [List.getLast?_isSome]
          exact List.cons_ne_nil b t
        obtain ⟨v, hv⟩ := Option.isSome_iff_exists.1 hsome
        rw [hv]
    · rw [if_neg hp]
      cases hfm : (rest.filterMap fun q => if q.1 = k then some q.2 else none) with
      | nil =>
        show lookupSection (dictUpdate d0 p.1 p.2) k = lookupSection d0 k
        exact lookupDictUpdateOther d0 p.1 p.2 k fun h => hp h.symm
      | cons b t => rfl

/-- C7: when the same section kind is saved more than once while scanning the
text, the mapping returned by `detect_sections` holds exactly the content of
the last such save — later content overwrites earlier content, with no
merging. -/
theorem c7_section_overwrite (text : Str) (k : SectionType) (cs : List Str)
    (hcs : cs = (sectionSaves text).filterMap fun p => if p.1 = k then some p.2 else none)
    (hlen : 2 ≤ cs.length) :
    lookupSection (detect_sections text) k = cs.getLast? := by
  unfold detect_sections
  rw [lookupFoldlSaves, ← hcs]
  cases hcl : cs.getLast? with
  | some v => rfl
  | none =>
    exfalso
    rw [List.getLast?_eq_none_iff] at hcl
    rw [hcl] at hlen
    exact absurd hlen (by norm_num)

/-- Witness for C7: a text with two `Skills` sections maps `skills` to the
later content. -/
theorem c7_section_overwrite_witness :
    lookupSection (detect_sections twoSkillsText) .skills = some (pstr "java") := by
  have h := c7_section_overwrite twoSkillsText .skills [pstr "python", pstr "java"]
    (by decide) (by norm_num)
  rw [h]
  rfl
